import Mathlib

/-
Verification of the streaming segmentation engine and history store of the
repository (src/src/open_llm_vtuber/agent/stateless_llm/dify_llm.py and
src/src/open_llm_vtuber/chat_history_manager.py).

Strings are modelled as `List Char` (Python `str` is a sequence of Unicode
code points, and Lean `Char` is a Unicode scalar value).  Python functions
that raise are modelled with `Option` (`none` = an exception is raised);
the filesystem is modelled as a map from paths to file contents.
-/

namespace Dify

/-- Python `str.isspace` for a single character: the whitespace set used by
`str.strip()` (ASCII whitespace, the C1 separators, NEL, and the Unicode
space separators). -/
def pyIsSpace (c : Char) : Bool :=
  c == ' ' || c == '\t' || c == '\n' || c == '\x0b' || c == '\x0c' || c == '\r' ||
  c == '\x1c' || c == '\x1d' || c == '\x1e' || c == '\x1f' || c == '\u0085' ||
  c == '\u00a0' || c == '\u1680' || c == '\u2000' || c == '\u2001' || c == '\u2002' ||
  c == '\u2003' || c == '\u2004' || c == '\u2005' || c == '\u2006' || c == '\u2007' ||
  c == '\u2008' || c == '\u2009' || c == '\u200a' || c == '\u2028' || c == '\u2029' ||
  c == '\u202f' || c == '\u205f' || c == '\u3000'

/-- Python `text.strip()`: drop whitespace from both ends. -/
def pyStrip (l : List Char) : List Char :=
  ((l.dropWhile pyIsSpace).reverse.dropWhile pyIsSpace).reverse

/-- Models the Python test `not text.strip()`: every character is whitespace
(true in particular for the empty string). -/
def wsOnly (l : List Char) : Bool :=
  l.all pyIsSpace

/-- Python `text.split(sep)` for a one-character separator `sep`. -/
def splitOnChar (sep : Char) : List Char → List (List Char)
  | [] => [[]]
  | c :: rest =>
    if c = sep then [] :: splitOnChar sep rest
    else
      match splitOnChar sep rest with
      | [] => [[c]]
      | h :: t => (c :: h) :: t

/-- Python `sep.join(parts)` for a one-character separator `sep`. -/
def intercalateChar (sep : Char) : List (List Char) → List Char
  | [] => []
  | [l] => l
  | l :: rest => l ++ sep :: intercalateChar sep rest

/-- Python `text.find(pat)`: index of the first occurrence of the substring
`pat`, `none` when absent (Python returns -1). -/
def findSubIdx (pat : List Char) : List Char → Option Nat
  | [] => if pat.isPrefixOf ([] : List Char) then some 0 else none
  | c :: rest =>
    if pat.isPrefixOf (c :: rest) then some 0
    else (findSubIdx pat rest).map (· + 1)

/-- The triple-backtick code-fence marker. -/
def fence : List Char :=
  ['\x60', '\x60', '\x60']

/-- Python `text.count('\x60\x60\x60')`: number of non-overlapping
occurrences of the fence marker. -/
def countFence : List Char → Nat
  | '\x60' :: '\x60' :: '\x60' :: rest => 1 + countFence rest
  | _ :: rest => countFence rest
  | [] => 0

/-- Index of the last element of `l` satisfying `p`, offset by `i`
(models Python loops recording the last matching index, and `str.rfind`). -/
def lastIdxAux (p : Char → Bool) : List Char → Nat → Option Nat
  | [], _ => none
  | c :: rest, i =>
    match lastIdxAux p rest (i + 1) with
    | some j => some j
    | none => if p c then some i else none

/-- The list `primary_endings = ['。', '？', '！', '；']` of `_split_normal_text`. -/
def primary_endings : List Char :=
  ['。', '？', '！', '；']

/-- The list `secondary_endings` of `_split_normal_text` (the last three source
literals are U+0022, U+0027 and U+FF1A). -/
def secondary_endings : List Char :=
  ['，', '、', '）', '】', '》', '\x22', '\x27', '：']

/-- The scanning loop of `_split_normal_text`: walk the text left to right
carrying the already-scanned text `seen` (`= text[:i]`); return the cut
length `i + 1` at the first primary separator with `i > 0`, or at the first
newline with `i > 0` that is not preceded by any primary separator. -/
def findCutAux (seen : List Char) : List Char → Option Nat
  | [] => none
  | c :: rest =>
    if primary_endings.contains c then
      if seen.length > 0 then some (seen.length + 1)
      else findCutAux (seen ++ [c]) rest
    else if c = '\n' then
      if (!seen.any (fun x => primary_endings.contains x)) && seen.length > 0 then
        some (seen.length + 1)
      else findCutAux (seen ++ [c]) rest
    else findCutAux (seen ++ [c]) rest

/-- The space fallback of `_split_normal_text`: `last_space =
text[:search_range].rfind(' ')`, cut after it when its index is positive
(`search_range = min(len(text), 100)`). -/
def sntFallback (text : List Char) : Option (List Char × List Char) :=
  match lastIdxAux (fun c => c == ' ') (text.take (min text.length 100)) 0 with
  | some j =>
    if j > 0 then some (text.take (j + 1), text.drop (j + 1)) else none
  | none => none

/-- Models `AsyncLLM._split_normal_text`: layered separator search.  Primary
separators (and early newlines) cut immediately; otherwise, above 50
characters, the last secondary separator inside a 100-character window is
used, then the last space; otherwise wait for more input (`none`). -/
def split_normal_text (text : List Char) : Option (List Char × List Char) :=
  match findCutAux [] text with
  | some n => some (text.take n, text.drop n)
  | none =>
    if text.length > 50 then
      match lastIdxAux (fun c => secondary_endings.contains c)
          (text.take (min text.length 100)) 0 with
      | some j =>
        if j > 0 then some (text.take (j + 1), text.drop (j + 1))
        else sntFallback text
      | none => sntFallback text
    else none

/-- Python `text.find(c)` for a single character `c` satisfying `p`:
index of the first occurrence, `none` when absent. -/
def findCharIdx (p : Char → Bool) : List Char → Option Nat
  | [] => none
  | c :: rest => if p c then some 0 else (findCharIdx p rest).map (· + 1)

/-- Position of the first special marker: the minimum of the positions of
the first fence marker and the first pipe character (Python computes
`min(pos for pos in [code_start, table_start] if pos != -1)`). -/
def firstSpecialPos (text : List Char) : Option Nat :=
  match findSubIdx fence text, findCharIdx (fun c => c == '|') text with
  | some c, some t => some (min c t)
  | some c, none => some c
  | none, some t => some t
  | none, none => none

/-- Force-emitted plain text gets a trailing newline if it lacks one
(Python: `if not normal_text.endswith('\n'): normal_text += '\n'`). -/
def forcePlain (normal_text : List Char) : List Char :=
  if normal_text.getLast? = some '\n' then normal_text
  else normal_text ++ ['\n']

/-- The code-block branch of `_split_complete_sentences`, entered with
`cs = code_start`.  Fewer than two fence markers: the block is open, emit
nothing.  Otherwise cut after the second marker and append a newline when
the remainder is non-empty and does not already start with one. -/
def codeBranch (text : List Char) (cs : Nat) : Option (List Char × List Char) :=
  if countFence (text.drop cs) < 2 then none
  else
    match findSubIdx fence (text.drop (cs + 3)) with
    | none => none
    | some k =>
      -- end_idx = cs + 3 + k, code_block = text[cs:end_idx+3],
      -- remaining = text[end_idx+3:]
      if text.drop (cs + 3 + k + 3) ≠ [] ∧
          (text.drop (cs + 3 + k + 3)).head? ≠ some '\n' then
        some (List.take (cs + 3 + k + 3 - cs) (text.drop cs) ++ ['\n'],
              text.drop (cs + 3 + k + 3))
      else
        some (List.take (cs + 3 + k + 3 - cs) (text.drop cs),
              text.drop (cs + 3 + k + 3))

/-- One line of the table loop test: `line.strip().startswith('|')`. -/
def pipeLine (line : List Char) : Bool :=
  (pyStrip line).head? == some '|'

/-- The `for i, line in enumerate(lines)` loop of the table branch,
carrying `table_lines`, `remaining_lines` and the `in_table` flag; on the
first non-pipe line after the table it breaks with
`remaining_lines = lines[i:]`. -/
def tableScan :
    List (List Char) → List (List Char) → List (List Char) → Bool →
    List (List Char) × List (List Char)
  | [], tls, rls, _ => (tls, rls)
  | line :: rest, tls, rls, in_table =>
    if pipeLine line then tableScan rest (tls ++ [line]) rls true
    else if in_table then (tls, line :: rest)
    else tableScan rest tls (rls ++ [line]) in_table

/-- The table branch of `_split_complete_sentences`, entered with
`ts = table_start`. -/
def tableBranch (text : List Char) (ts : Nat) : Option (List Char × List Char) :=
  let p := tableScan (splitOnChar '\n' (text.drop ts)) [] [] false
  if p.1 ≠ [] then
    some (intercalateChar '\n' p.1, intercalateChar '\n' p.2)
  else none

/-- Models `AsyncLLM._split_complete_sentences`: the segmentation engine's
extraction step.  `none` models the Python return value `[]` (no complete
unit yet); `some (u, r)` models `[u, r]` (complete unit and remainder). -/
def split_complete_sentences (text : List Char) : Option (List Char × List Char) :=
  if wsOnly text then none
  else
    match firstSpecialPos text with
    | none => split_normal_text text
    | some fs =>
      if 0 < fs then
        some (forcePlain (text.take fs), text.drop fs)
      else if findSubIdx fence text = some fs then
        codeBranch text fs
      else if findCharIdx (fun c => c == '|') text = some fs then
        tableBranch text fs
      else none

/-! ## The stream orchestrator of `AsyncLLM.chat_completion`

One decoded SSE event; a `List Char` field equal to `[]` models a value
that is absent or empty (both are falsy in Python), `message` is the error
text whose absent key defaults to `"未知错误"`. -/

structure SSEEvent where
  event : List Char := []
  conversation_id : List Char := []
  message_id : List Char := []
  answer : List Char := []
  message : Option (List Char) := none
deriving DecidableEq

/-- The reserved conversation-id control marker yielded by
`chat_completion`. -/
def convMarker (cid : List Char) : List Char :=
  ("__conversation_id:").data ++ cid

/-- The reserved message-id control marker yielded by `chat_completion`. -/
def msgMarker (mid : List Char) : List Char :=
  ("__message_id:").data ++ mid

/-- The head of the error-event output `f"错误: {error_msg}"`. -/
def errHead : List Char :=
  ("错误: ").data

/-- The event loop of `chat_completion` over already-decoded events;
returns the yielded outputs in order and the value of `self.buffer` when
the loop is left (before the `finally` clause).  The guard of the
conversation-id marker tests the `conversation_id` parameter, which the
loop never reassigns. -/
def difyLoop (conversation_id : List Char) :
    List SSEEvent → List Char → List (List Char) × List Char
  | [], buf => ([], buf)
  | e :: rest, buf =>
    let convOut : List (List Char) :=
      if conversation_id = [] ∧ e.conversation_id ≠ [] then
        [convMarker e.conversation_id]
      else []
    if e.event = ("error").data then
      (convOut ++ [errHead ++ e.message.getD (("未知错误").data)], buf)
    else if e.event = ("message").data then
      let msgOut : List (List Char) :=
        if e.message_id ≠ [] then [msgMarker e.message_id] else []
      let fed : List (List Char) × List Char :=
        if e.answer ≠ [] then
          match split_complete_sentences (buf ++ e.answer) with
          | some (u, r) => ([u], r)
          | none => ([], buf ++ e.answer)
        else ([], buf)
      let tail := difyLoop conversation_id rest fed.2
      (convOut ++ msgOut ++ fed.1 ++ tail.1, tail.2)
    else if e.event = ("message_end").data then
      (convOut ++ (if buf ≠ [] then [buf] else []), [])
    else
      let tail := difyLoop conversation_id rest buf
      (convOut ++ tail.1, tail.2)

/-- One whole `chat_completion` call: the loop runs over the events that
were received; a transport failure after them is surfaced as one
synthesized error output (`except` clause); the `finally` clause clears
`self.buffer` on every exit path, so the second component is the buffer
after the call. -/
def chat_completion_run (conversation_id : List Char) (events : List SSEEvent)
    (transport_error : Option (List Char)) : List (List Char) × List Char :=
  let p := difyLoop conversation_id events []
  match transport_error with
  | some m => (p.1 ++ [("调用 Dify API 时发生错误: ").data ++ m], [])
  | none => (p.1, [])

/-! ## The segmentation engine driven delta by delta

`feedDeltas` is the `message`-event handling restricted to the answer
deltas: each delta is appended to the buffer and at most one unit is
extracted (the code calls `_split_complete_sentences` once per event). -/

def feedDeltas : List (List Char) → List Char → List (List Char) × List Char
  | [], buf => ([], buf)
  | d :: rest, buf =>
    if d = [] then feedDeltas rest buf
    else
      match split_complete_sentences (buf ++ d) with
      | some (u, r) =>
        let tail := feedDeltas rest r
        (u :: tail.1, tail.2)
      | none => feedDeltas rest (buf ++ d)

/-- All units emitted for a delta sequence, including the final flush of
the non-empty buffer at stream end (`message_end`). -/
def processDeltas (deltas : List (List Char)) : List (List Char) :=
  let p := feedDeltas deltas []
  p.1 ++ (if p.2 ≠ [] then [p.2] else [])

/-! ## Vocabulary for the claim statements -/

/-- No primary separator occurs strictly before position `i`. -/
def noPrimaryBefore (text : List Char) (i : Nat) : Bool :=
  (text.take i).all (fun e => !(primary_endings.contains e))

/-- Position `i` is a boundary in the sense of the specification of
`_split_normal_text`: it holds a primary separator, or a newline with no
primary separator anywhere before it. -/
def cutAt (text : List Char) (i : Nat) : Bool :=
  match text[i]? with
  | some d =>
    primary_endings.contains d || (d == '\n' && noPrimaryBefore text i)
  | none => false

end Dify

namespace ChatHistory

/-- A Unicode control character (C0, DEL or C1). -/
def isControlChar (c : Char) : Bool :=
  c.toNat < 0x20 || c.toNat == 0x7F || (0x80 ≤ c.toNat && c.toNat ≤ 0x9F)

end ChatHistory

namespace ChatHistory

open Dify (pyIsSpace pyStrip splitOnChar intercalateChar)

/-- Posix `os.path.basename`: the component after the last `/`. -/
def basename (l : List Char) : List Char :=
  (l.reverse.takeWhile (fun c => c != '/')).reverse

/-- One character of the `_is_safe_filename` character class
`[\w\-_ -~ -￿]`.  The two explicit ranges subsume
`\w`, `-` and `_` for every character below U+10000; characters of the
supplementary planes (where `\w` alone decides) do not occur in the
identifiers this development reasons about, so the embedding covers the
Basic Multilingual Plane. -/
def safeChar (c : Char) : Bool :=
  (0x20 ≤ c.toNat && c.toNat ≤ 0x7E) || (0xA0 ≤ c.toNat && c.toNat ≤ 0xFFFF)

/-- Models `_is_safe_filename`: non-empty, at most 255 characters, and fully
matched by the character class above. -/
def is_safe_filename (filename : List Char) : Bool :=
  if filename = [] ∨ filename.length > 255 then false
  else filename.all safeChar

/-- Models `_sanitize_path_component`: strip, take the basename, then validate;
`none` models the raised `ValueError`. -/
def sanitize_path_component (component : List Char) : Option (List Char) :=
  let sanitized := basename (pyStrip component)
  if is_safe_filename sanitized then some sanitized else none

/-- Posix `os.path.normpath` on a relative path: process the `/`-separated
segments, dropping empty and `.` segments and letting `..` pop the
previous segment when one is available. -/
def normpathSegs : List (List Char) → List (List Char) → List (List Char)
  | [], acc => acc
  | s :: rest, acc =>
    if s = [] ∨ s = ['.'] then normpathSegs rest acc
    else if s = ['.', '.'] then
      match acc.getLast? with
      | some t =>
        if t = ['.', '.'] then normpathSegs rest (acc ++ [s])
        else normpathSegs rest acc.dropLast
      | none => normpathSegs rest (acc ++ [s])
    else normpathSegs rest (acc ++ [s])

/-- Models `os.path.normpath` restricted to relative paths (every path built here
is relative). -/
def normpathRel (l : List Char) : List Char :=
  match normpathSegs (splitOnChar '/' l) [] with
  | [] => ['.']
  | segs => intercalateChar '/' segs

/-- Models `_get_safe_history_path`: sanitize both identifiers, join the path,
normalize it and reject it unless it still starts with the user's base
directory; `none` models the raised `ValueError`. -/
def get_safe_history_path (user_id history_uid : List Char) :
    Option (List Char) :=
  match sanitize_path_component user_id, sanitize_path_component history_uid with
  | some su, some sh =>
    let base_dir := ("chat_history/users/").data ++ su
    let full_path := normpathRel (base_dir ++ '/' :: sh ++ (".json").data)
    if base_dir.isPrefixOf full_path then some full_path else none
  | _, _ => none

/-- One JSON record of a history file (the metadata record or one
message); a `none` field models an absent key. -/
structure HistoryRecord where
  role : List Char
  timestamp : List Char
  content : List Char := []
  conversation_id : Option (List Char) := none
  user_id : Option (List Char) := none
  name : Option (List Char) := none
  avatar : Option (List Char) := none
deriving DecidableEq

/-- The filesystem: a map from file paths to parsed file contents. -/
def FS : Type :=
  List Char → Option (List HistoryRecord)

/-- The metadata record written by `create_new_history`. -/
def metadataRecord (now user_id : List Char) : HistoryRecord :=
  { role := ("metadata").data, timestamp := now,
    conversation_id := none, user_id := some user_id }

/-- Models `create_new_history`: the generated `history_uid` (wall clock plus
uuid) and the timestamp are taken as parameters; an empty `user_id`
returns without touching the filesystem, a sanitization failure raises
(`none`), otherwise the file `{user_dir}/{history_uid}.json` is written
with the single metadata record. -/
def create_new_history (fs : FS) (user_id history_uid now : List Char) :
    Option FS :=
  if user_id = [] then some fs
  else
    match sanitize_path_component user_id with
    | none => none
    | some su =>
      let filepath :=
        ("chat_history/users/").data ++ su ++ '/' :: history_uid ++ (".json").data
      some (fun p =>
        if p = filepath then some [metadataRecord now user_id] else fs p)

/-- Models `store_message`: empty identifiers return without writing; the path is
sanitized (raising on failure); the existing file is read (a missing or
unreadable file reads as `[]`), the new record is appended and the file is
rewritten. -/
def store_message (fs : FS) (user_id history_uid role content : List Char)
    (name avatar : Option (List Char)) (now : List Char) : Option FS :=
  if user_id = [] ∨ history_uid = [] then some fs
  else
    match get_safe_history_path user_id history_uid with
    | none => none
    | some path =>
      let history_data := (fs path).getD []
      let new_item : HistoryRecord :=
        { role := role, timestamp := now, content := content,
          name := name, avatar := avatar }
      some (fun p =>
        if p = path then some (history_data ++ [new_item]) else fs p)

/-- Models `get_history`: empty identifiers or a missing/unreadable file read as
`[]`; otherwise every record except the metadata record, in file order. -/
def get_history (fs : FS) (user_id history_uid : List Char) :
    Option (List HistoryRecord) :=
  if user_id = [] ∨ history_uid = [] then some []
  else
    match get_safe_history_path user_id history_uid with
    | none => none
    | some path =>
      match fs path with
      | none => some []
      | some data => some (data.filter (fun m => m.role ≠ ("metadata").data))

end ChatHistory

/-! ## Supporting lemmas -/

namespace Dify

theorem splitOnChar_ne_nil (sep : Char) : ∀ l, splitOnChar sep l ≠ []
  | [] => by simp [splitOnChar]
  | c :: rest => by
    simp only [splitOnChar]
    split
    · simp
    · cases h : splitOnChar sep rest with
      | nil => exact absurd h (splitOnChar_ne_nil sep rest)
      | cons a t => simp

theorem intercalateChar_splitOnChar (sep : Char) :
    ∀ l, intercalateChar sep (splitOnChar sep l) = l
  | [] => rfl
  | c :: rest => by
    have hrt := intercalateChar_splitOnChar sep rest
    simp only [splitOnChar]
    by_cases hc : c = sep
    · rw [if_pos hc]
      cases h : splitOnChar sep rest with
      | nil => exact absurd h (splitOnChar_ne_nil sep rest)
      | cons a t =>
        rw [h] at hrt
        simp only [intercalateChar, List.nil_append, hc]
        rw [hrt]
    · rw [if_neg hc]
      cases h : splitOnChar sep rest with
      | nil => exact absurd h (splitOnChar_ne_nil sep rest)
      | cons a t =>
        rw [h] at hrt
        cases t with
        | nil =>
          simp only [intercalateChar] at hrt ⊢
          rw [hrt]
        | cons b t2 =>
          simp only [intercalateChar] at hrt ⊢
          rw [List.cons_append, hrt]

theorem intercalateChar_append (sep : Char) :
    ∀ xs ys, xs ≠ [] → ys ≠ [] →
      intercalateChar sep (xs ++ ys) =
        intercalateChar sep xs ++ sep :: intercalateChar sep ys
  | [], _, hx, _ => absurd rfl hx
  | [x], ys, _, hy => by
    cases ys with
    | nil => exact absurd rfl hy
    | cons y t => simp [intercalateChar]
  | x :: x2 :: xs, ys, _, hy => by
    have ih := intercalateChar_append sep (x2 :: xs) ys (by simp) hy
    show x ++ sep :: intercalateChar sep (x2 :: xs ++ ys) =
      (x ++ sep :: intercalateChar sep (x2 :: xs)) ++ sep :: intercalateChar sep ys
    rw [ih]
    simp [List.append_assoc]

theorem intercalateChar_ne_nil (sep : Char) (l0 : List Char) (t : List (List Char))
    (h : l0 ≠ []) : intercalateChar sep (l0 :: t) ≠ [] := by
  cases t with
  | nil => simpa [intercalateChar] using h
  | cons b t2 =>
    simp only [intercalateChar]
    intro hcontra
    rcases List.append_eq_nil.mp hcontra with ⟨h1, h2⟩
    exact List.cons_ne_nil _ _ h2

theorem tableScan_true :
    ∀ rest tls, tableScan rest tls [] true =
      (tls ++ rest.takeWhile pipeLine, rest.dropWhile pipeLine)
  | [], tls => by simp [tableScan]
  | line :: rest, tls => by
    by_cases h : pipeLine line = true
    · simp [tableScan, h, tableScan_true rest (tls ++ [line]),
        List.takeWhile_cons, List.dropWhile_cons]
    · simp [tableScan, h, List.takeWhile_cons, List.dropWhile_cons]

theorem tableScan_head_pipe (l0 : List Char) (rest : List (List Char))
    (h : pipeLine l0 = true) :
    tableScan (l0 :: rest) [] [] false =
      ((l0 :: rest).takeWhile pipeLine, (l0 :: rest).dropWhile pipeLine) := by
  simp [tableScan, h, tableScan_true, List.takeWhile_cons, List.dropWhile_cons]

theorem dropWhile_append_singleton (p : Char → Bool) (c : Char) (h : p c = false) :
    ∀ xs, (xs ++ [c]).dropWhile p = xs.dropWhile p ++ [c]
  | [] => by simp [List.dropWhile_cons, h]
  | x :: xs => by
    by_cases hx : p x = true
    · simp [List.dropWhile_cons, hx, dropWhile_append_singleton p c h xs]
    · simp [List.dropWhile_cons, hx]

theorem pyStrip_cons_head (c : Char) (t : List Char) (h : pyIsSpace c = false) :
    (pyStrip (c :: t)).head? = some c := by
  unfold pyStrip
  rw [List.dropWhile_cons, if_neg (by simp [h]), List.reverse_cons,
    dropWhile_append_singleton pyIsSpace c h t.reverse]
  simp

theorem pipeLine_of_head (line : List Char) (h : line.head? = some '|') :
    pipeLine line = true := by
  cases line with
  | nil => simp at h
  | cons c t =>
    simp only [List.head?_cons, Option.some.injEq] at h
    subst h
    simp [pipeLine, pyStrip_cons_head '|' t (by decide)]

theorem wsOnly_false_of_mem (l : List Char) (c : Char) (hc : c ∈ l)
    (hs : pyIsSpace c = false) : wsOnly l = false := by
  cases h : l.all pyIsSpace with
  | false => simpa [wsOnly] using h
  | true =>
    rw [List.all_eq_true] at h
    rw [h c hc] at hs
    exact absurd hs (by simp)

theorem findSubIdx_of_isPrefixOf (pat l : List Char) (h : pat.isPrefixOf l = true) :
    findSubIdx pat l = some 0 := by
  cases l <;> simp [findSubIdx, h]

theorem findSubIdx_isPrefixOf_drop (pat : List Char) :
    ∀ l i, findSubIdx pat l = some i → pat.isPrefixOf (l.drop i) = true
  | [], i => by
    simp only [findSubIdx]
    split
    · rename_i hp
      intro h
      injection h with h
      subst h
      simpa using hp
    · intro h; exact absurd h (by simp)
  | c :: rest, i => by
    simp only [findSubIdx]
    split
    · rename_i hp
      intro h
      injection h with h
      subst h
      simpa using hp
    · intro h
      rcases Option.map_eq_some'.mp h with ⟨j, hj, rfl⟩
      exact findSubIdx_isPrefixOf_drop pat rest j hj

theorem mem_of_findSubIdx_fence (l : List Char) (i : Nat)
    (h : findSubIdx fence l = some i) : '\x60' ∈ l := by
  have hp := findSubIdx_isPrefixOf_drop fence l i h
  rw [List.isPrefixOf_iff_prefix] at hp
  rcases hp with ⟨t, ht⟩
  have : '\x60' ∈ l.drop i := by rw [← ht]; simp [fence]
  exact List.mem_of_mem_drop this

theorem mem_of_findCharIdx (p : Char → Bool) :
    ∀ l i, findCharIdx p l = some i → ∃ c ∈ l, p c = true
  | [], i => by simp [findCharIdx]
  | c :: rest, i => by
    simp only [findCharIdx]
    split
    · rename_i hp
      intro _
      exact ⟨c, by simp, hp⟩
    · intro h
      rcases Option.map_eq_some'.mp h with ⟨j, hj, rfl⟩
      rcases mem_of_findCharIdx p rest j hj with ⟨d, hd, hpd⟩
      exact ⟨d, by simp [hd], hpd⟩

end Dify

namespace Dify

theorem isPrefixOf_cons_false (a b : Char) (as bs : List Char) (h : (a == b) = false) :
    (a :: as).isPrefixOf (b :: bs) = false := by
  simp only [List.isPrefixOf, h, Bool.false_and]

theorem findCharIdx_ne_some_zero (p : Char → Bool) (c : Char) (rest : List Char)
    (h : p c = false) : findCharIdx p (c :: rest) ≠ some 0 := by
  simp only [findCharIdx, h, Bool.false_eq_true, if_false]
  cases findCharIdx p rest <;> simp

theorem scs_eq_tableBranch (text : List Char) (h : text.head? = some '|') :
    split_complete_sentences text = tableBranch text 0 := by
  cases text with
  | nil => simp at h
  | cons c t =>
    simp only [List.head?_cons, Option.some.injEq] at h
    subst h
    have hws : wsOnly ('|' :: t) = false :=
      wsOnly_false_of_mem _ '|' (by simp) (by decide)
    have hfence : fence.isPrefixOf ('|' :: t) = false :=
      isPrefixOf_cons_false '\x60' '|' _ _ (by decide)
    have hsub : findSubIdx fence ('|' :: t) = (findSubIdx fence t).map (· + 1) := by
      simp only [findSubIdx, hfence, Bool.false_eq_true, if_false]
    have hpipe : findCharIdx (fun c => c == '|') ('|' :: t) = some 0 := by
      simp [findCharIdx]
    have hfsp : firstSpecialPos ('|' :: t) = some 0 := by
      unfold firstSpecialPos
      rw [hsub, hpipe]
      cases findSubIdx fence t <;> simp
    simp only [split_complete_sentences, hws, hfsp, Bool.false_eq_true, if_false]
    rw [if_neg (by omega), if_neg ?_, if_pos hpipe]
    rw [hsub]
    cases findSubIdx fence t <;> simp

theorem scs_eq_codeBranch (text : List Char) (h : fence.isPrefixOf text = true) :
    split_complete_sentences text = codeBranch text 0 := by
  have hws : wsOnly text = false := by
    rw [List.isPrefixOf_iff_prefix] at h
    rcases h with ⟨t, rfl⟩
    exact wsOnly_false_of_mem _ '\x60' (by simp [fence]) (by decide)
  have hsub : findSubIdx fence text = some 0 := findSubIdx_of_isPrefixOf _ _ h
  have hhead : ∃ t, text = '\x60' :: t := by
    rw [List.isPrefixOf_iff_prefix] at h
    rcases h with ⟨t, rfl⟩
    exact ⟨'\x60' :: '\x60' :: t, rfl⟩
  rcases hhead with ⟨t, rfl⟩
  have hfsp : firstSpecialPos ('\x60' :: t) = some 0 := by
    unfold firstSpecialPos
    rw [hsub]
    have : findCharIdx (fun c => c == '|') ('\x60' :: t) =
        (findCharIdx (fun c => c == '|') t).map (· + 1) := by
      simp only [findCharIdx]
      rw [if_neg (by decide)]
    rw [this]
    cases findCharIdx (fun c => c == '|') t <;> simp [Nat.zero_min]
  simp only [split_complete_sentences, hws, hfsp, Bool.false_eq_true, if_false]
  rw [if_neg (by omega), if_pos hsub]

theorem scs_plain (text : List Char) (k : Nat)
    (h : firstSpecialPos text = some k) (hk : 0 < k) :
    split_complete_sentences text = some (forcePlain (text.take k), text.drop k) := by
  have hws : wsOnly text = false := by
    unfold firstSpecialPos at h
    cases hf : findSubIdx fence text with
    | some c =>
      exact wsOnly_false_of_mem _ '\x60' (mem_of_findSubIdx_fence text c hf) (by decide)
    | none =>
      rw [hf] at h
      cases hp : findCharIdx (fun c => c == '|') text with
      | some j =>
        rcases mem_of_findCharIdx _ text j hp with ⟨d, hd, hpd⟩
        have : d = '|' := by simpa using hpd
        subst this
        exact wsOnly_false_of_mem _ '|' hd (by decide)
      | none => rw [hp] at h; exact absurd h (by simp)
  simp only [split_complete_sentences, hws, h, Bool.false_eq_true, if_false]
  rw [if_pos hk]

theorem scs_eq_normal (text : List Char)
    (h1 : findSubIdx fence text = none)
    (h2 : findCharIdx (fun c => c == '|') text = none)
    (hws : wsOnly text = false) :
    split_complete_sentences text = split_normal_text text := by
  have hfsp : firstSpecialPos text = none := by
    unfold firstSpecialPos
    rw [h1, h2]
  simp only [split_complete_sentences, hws, hfsp, Bool.false_eq_true, if_false]

end Dify

namespace Dify

theorem sntFallback_append (text u r : List Char)
    (h : sntFallback text = some (u, r)) : u ++ r = text := by
  unfold sntFallback at h
  split at h
  · split at h
    · simp only [Option.some.injEq, Prod.mk.injEq] at h
      obtain ⟨rfl, rfl⟩ := h
      exact List.take_append_drop _ _
    · exact absurd h (by simp)
  · exact absurd h (by simp)

theorem split_normal_text_append (text u r : List Char)
    (h : split_normal_text text = some (u, r)) : u ++ r = text := by
  unfold split_normal_text at h
  split at h
  · simp only [Option.some.injEq, Prod.mk.injEq] at h
    obtain ⟨rfl, rfl⟩ := h
    exact List.take_append_drop _ _
  · split at h
    · split at h
      · split at h
        · simp only [Option.some.injEq, Prod.mk.injEq] at h
          obtain ⟨rfl, rfl⟩ := h
          exact List.take_append_drop _ _
        · exact sntFallback_append text u r h
      · exact sntFallback_append text u r h
    · exact absurd h (by simp)

theorem codeBranch_zero_filter (text u r : List Char)
    (h : codeBranch text 0 = some (u, r)) :
    (u ++ r).filter (fun c => c != '\n') = text.filter (fun c => c != '\n') := by
  unfold codeBranch at h
  split at h
  · exact absurd h (by simp)
  · split at h
    · exact absurd h (by simp)
    · rename_i k hk
      split at h
      · simp only [Option.some.injEq, Prod.mk.injEq] at h
        obtain ⟨rfl, rfl⟩ := h
        simp only [List.drop_zero]
        rw [List.append_assoc, List.filter_append, List.filter_append]
        have hfn : List.filter (fun c => c != '\n') (['\n'] : List Char) = [] := rfl
        rw [hfn, List.nil_append, ← List.filter_append]
        have h2 : (0 : Nat) + 3 + k + 3 - 0 = 0 + 3 + k + 3 := by omega
        rw [h2, List.take_append_drop]
      · simp only [Option.some.injEq, Prod.mk.injEq] at h
        obtain ⟨rfl, rfl⟩ := h
        simp only [List.drop_zero]
        have h2 : (0 : Nat) + 3 + k + 3 - 0 = 0 + 3 + k + 3 := by omega
        rw [h2, List.take_append_drop]

theorem splitOnChar_cons_head (sep c : Char) (rest : List Char) (hc : ¬ c = sep) :
    ∃ h t, splitOnChar sep (c :: rest) = (c :: h) :: t := by
  simp only [splitOnChar, if_neg hc]
  cases hs : splitOnChar sep rest with
  | nil => exact absurd hs (splitOnChar_ne_nil sep rest)
  | cons a t => exact ⟨a, t, rfl⟩

theorem tableBranch_head_pipe (text : List Char) (h : text.head? = some '|') :
    tableBranch text 0 =
      some (intercalateChar '\n' ((splitOnChar '\n' text).takeWhile pipeLine),
            intercalateChar '\n' ((splitOnChar '\n' text).dropWhile pipeLine)) := by
  cases text with
  | nil => simp at h
  | cons c t =>
    simp only [List.head?_cons, Option.some.injEq] at h
    subst h
    rcases splitOnChar_cons_head '\n' '|' t (by decide) with ⟨h0, t0, hsp⟩
    have hpl : pipeLine ('|' :: h0) = true := pipeLine_of_head _ (by simp)
    unfold tableBranch
    simp only [List.drop_zero, hsp, tableScan_head_pipe _ _ hpl]
    rw [if_pos]
    rw [List.takeWhile_cons, if_pos hpl]
    exact List.cons_ne_nil _ _

theorem tableBranch_filter (text u r : List Char) (hh : text.head? = some '|')
    (h : tableBranch text 0 = some (u, r)) :
    (u ++ r).filter (fun c => c != '\n') = text.filter (fun c => c != '\n') := by
  rw [tableBranch_head_pipe text hh] at h
  simp only [Option.some.injEq, Prod.mk.injEq] at h
  obtain ⟨rfl, rfl⟩ := h
  have hround := intercalateChar_splitOnChar '\n' text
  have hsplit := List.takeWhile_append_dropWhile pipeLine (splitOnChar '\n' text)
  have htw : (splitOnChar '\n' text).takeWhile pipeLine ≠ [] := by
    cases text with
    | nil => simp at hh
    | cons c t =>
      simp only [List.head?_cons, Option.some.injEq] at hh
      subst hh
      rcases splitOnChar_cons_head '\n' '|' t (by decide) with ⟨h0, t0, hsp⟩
      rw [hsp, List.takeWhile_cons, if_pos (pipeLine_of_head _ (by simp))]
      exact List.cons_ne_nil _ _
  by_cases hdw : (splitOnChar '\n' text).dropWhile pipeLine = []
  · rw [hdw, List.append_nil] at hsplit
    rw [hdw]
    simp only [intercalateChar, List.append_nil]
    rw [hsplit, hround]
  · have hic : intercalateChar '\n' (splitOnChar '\n' text) =
        intercalateChar '\n' ((splitOnChar '\n' text).takeWhile pipeLine) ++
          '\n' :: intercalateChar '\n' ((splitOnChar '\n' text).dropWhile pipeLine) := by
      conv_lhs => rw [← hsplit]
      exact intercalateChar_append '\n' _ _ htw hdw
    conv_rhs => rw [← hround, hic]
    rw [List.filter_append, List.filter_append, List.filter_cons,
      if_neg (by decide)]

end Dify

namespace Dify

theorem scs_filter (text u r : List Char)
    (h : split_complete_sentences text = some (u, r)) :
    (u ++ r).filter (fun c => c != '\n') = text.filter (fun c => c != '\n') := by
  unfold split_complete_sentences at h
  split at h
  · exact absurd h (by simp)
  · split at h
    · rw [split_normal_text_append text u r h]
    · split at h
      · simp only [Option.some.injEq, Prod.mk.injEq] at h
        obtain ⟨rfl, rfl⟩ := h
        unfold forcePlain
        split
        · rw [List.take_append_drop]
        · rw [List.append_assoc, List.filter_append, List.filter_append]
          have hfn : List.filter (fun c => c != '\n') (['\n'] : List Char) = [] := rfl
          rw [hfn, List.nil_append, ← List.filter_append, List.take_append_drop]
      · split at h
        · rename_i fs hfsp hnlt hfence
          have hfs0 : fs = 0 := by omega
          subst hfs0
          exact codeBranch_zero_filter text u r h
        · split at h
          · rename_i fs hfsp hnlt hfence hpipe
            have hfs0 : fs = 0 := by omega
            subst hfs0
            have hh : text.head? = some '|' := by
              cases text with
              | nil => simp [findCharIdx] at hpipe
              | cons c t =>
                by_cases hc : (c == '|') = true
                · simp only [List.head?_cons]
                  have : c = '|' := by simpa using hc
                  rw [this]
                · exact absurd hpipe
                    (findCharIdx_ne_some_zero _ c t (by simpa using hc))
            exact tableBranch_filter text u r hh h
          · exact absurd h (by simp)

theorem feedDeltas_filter :
    ∀ (deltas : List (List Char)) (buf : List Char),
      ((feedDeltas deltas buf).1.flatten ++ (feedDeltas deltas buf).2).filter
          (fun c => c != '\n') =
        (buf ++ deltas.flatten).filter (fun c => c != '\n')
  | [], buf => by simp [feedDeltas]
  | d :: rest, buf => by
    by_cases hd : d = []
    · subst hd
      have hstep : feedDeltas ([] :: rest) buf = feedDeltas rest buf := by
        simp [feedDeltas]
      rw [hstep, feedDeltas_filter rest buf]
      simp
    · simp only [feedDeltas, if_neg hd]
      cases hscs : split_complete_sentences (buf ++ d) with
      | some p =>
        obtain ⟨uu, rr⟩ := p
        dsimp only
        have ih := feedDeltas_filter rest rr
        have hcons := scs_filter (buf ++ d) uu rr hscs
        simp only [List.flatten_cons, List.filter_append] at ih hcons ⊢
        rw [List.append_assoc, ih, ← List.append_assoc, hcons, List.append_assoc]
      | none =>
        dsimp only
        have ih := feedDeltas_filter rest (buf ++ d)
        rw [ih]
        simp [List.append_assoc]

theorem processDeltas_flatten (deltas : List (List Char)) :
    (processDeltas deltas).flatten =
      (feedDeltas deltas []).1.flatten ++ (feedDeltas deltas []).2 := by
  unfold processDeltas
  rw [List.flatten_append]
  by_cases hp : (feedDeltas deltas []).2 ≠ []
  · rw [if_pos hp]
    simp
  · rw [if_neg hp]
    push_neg at hp
    rw [hp]
    simp

end Dify

namespace Dify

theorem fence_isPrefixOf_iff (l : List Char) :
    fence.isPrefixOf l = true ↔ ∃ t, l = '\x60' :: '\x60' :: '\x60' :: t := by
  rw [List.isPrefixOf_iff_prefix]
  constructor
  · rintro ⟨t, ht⟩
    exact ⟨t, ht.symm⟩
  · rintro ⟨t, rfl⟩
    exact ⟨t, rfl⟩

theorem countFence_cons_of_not_prefixOf (c : Char) (rest : List Char)
    (h : fence.isPrefixOf (c :: rest) = false) :
    countFence (c :: rest) = countFence rest := by
  conv_lhs => rw [countFence.eq_def]
  split
  · rename_i r heq
    exfalso
    rw [heq] at h
    simp [fence, List.isPrefixOf] at h
  · rename_i head rest2 heq
    injection heq with h1 h2
    rw [h2]
  · rename_i heq
    exact absurd heq (by simp)

theorem countFence_pos : ∀ (l : List Char) (k : Nat),
    findSubIdx fence l = some k → 1 ≤ countFence l
  | [], k => by simp [findSubIdx, fence, List.isPrefixOf]
  | c :: rest, k => by
    intro hk
    by_cases h : fence.isPrefixOf (c :: rest) = true
    · rcases (fence_isPrefixOf_iff _).mp h with ⟨t, heq⟩
      rw [heq]
      show 1 ≤ 1 + countFence t
      omega
    · have hf : fence.isPrefixOf (c :: rest) = false := by
        cases hb : fence.isPrefixOf (c :: rest)
        · rfl
        · exact absurd hb h
      rw [countFence_cons_of_not_prefixOf c rest hf]
      simp only [findSubIdx, hf, Bool.false_eq_true, if_false] at hk
      rcases Option.map_eq_some'.mp hk with ⟨j, hj, rfl⟩
      exact countFence_pos rest j hj

theorem findCutAux_pos : ∀ (rest seen : List Char) (n : Nat),
    findCutAux seen rest = some n → 0 < n
  | [], seen, n => by simp [findCutAux]
  | c :: rest, seen, n => by
    simp only [findCutAux]
    split
    · split
      · intro h
        injection h with h
        omega
      · exact findCutAux_pos rest (seen ++ [c]) n
    · split
      · split
        · intro h
          injection h with h
          omega
        · exact findCutAux_pos rest (seen ++ [c]) n
      · exact findCutAux_pos rest (seen ++ [c]) n

theorem noPrimaryBefore_of_any_eq_false (text : List Char) (m : Nat)
    (h : (text.take m).any (fun x => primary_endings.contains x) = false) :
    noPrimaryBefore text m = true := by
  rw [noPrimaryBefore, List.all_eq_true]
  intro e he
  cases hp : primary_endings.contains e
  · simp
  · exact absurd (List.any_eq_true.mpr ⟨e, he, hp⟩) (by rw [h]; simp)

theorem any_eq_false_of_noPrimaryBefore (text : List Char) (m : Nat)
    (h : noPrimaryBefore text m = true) :
    (text.take m).any (fun x => primary_endings.contains x) = false := by
  rw [noPrimaryBefore, List.all_eq_true] at h
  cases ha : (text.take m).any (fun x => primary_endings.contains x)
  · rfl
  · rcases List.any_eq_true.mp ha with ⟨e, he, hp⟩
    have := h e he
    rw [hp] at this
    exact absurd this (by simp)

end Dify

namespace Dify

theorem findCutAux_reaches (text : List Char) (i : Nat)
    (hcut : cutAt text i = true) (hpos : 0 < i)
    (hmin : ∀ j, j < i → 0 < j → cutAt text j = false) :
    ∀ (k m : Nat), m + k = i →
      findCutAux (text.take m) (text.drop m) = some (i + 1)
  | 0, m => by
    intro hmk
    have hm : m = i := by omega
    subst hm
    have hd : ∃ d, text[m]? = some d := by
      unfold cutAt at hcut
      cases hgd : text[m]? with
      | none => rw [hgd] at hcut; simp at hcut
      | some d => exact ⟨d, rfl⟩
    rcases hd with ⟨d, hgd⟩
    have hlen : m < text.length := (List.getElem?_eq_some.mp hgd).1
    have hdm : text[m] = d := (List.getElem?_eq_some.mp hgd).2
    have hdrop : text.drop m = d :: text.drop (m + 1) := by
      rw [List.drop_eq_getElem_cons hlen, hdm]
    have hlentake : (text.take m).length = m := by
      rw [List.length_take]; omega
    rw [hdrop]
    have hcut' : primary_endings.contains d = true ∨
        (d = '\n' ∧ noPrimaryBefore text m = true) := by
      unfold cutAt at hcut
      rw [hgd] at hcut
      rcases Bool.or_eq_true_iff.mp hcut with h | h
      · exact Or.inl h
      · rcases Bool.and_eq_true_iff.mp h with ⟨hb, hnp⟩
        exact Or.inr ⟨by simpa using hb, hnp⟩
    simp only [findCutAux]
    rcases hcut' with hprim | ⟨rfl, hnp⟩
    · rw [if_pos hprim, if_pos (by rw [hlentake]; exact hpos), hlentake]
    · rw [if_neg (by decide), if_pos rfl, if_pos, hlentake]
      have hany := any_eq_false_of_noPrimaryBefore text m hnp
      rw [hany]
      simp [hlentake, hpos]
  | k + 1, m => by
    intro hmk
    have hd : ∃ d, text[i]? = some d := by
      unfold cutAt at hcut
      cases hgd : text[i]? with
      | none => rw [hgd] at hcut; simp at hcut
      | some d => exact ⟨d, rfl⟩
    rcases hd with ⟨d', hgd'⟩
    have hleni : i < text.length := (List.getElem?_eq_some.mp hgd').1
    have hmlt : m < text.length := by omega
    have hdropm : text.drop m = text[m] :: text.drop (m + 1) :=
      List.drop_eq_getElem_cons hmlt
    have hstep : text.take m ++ [text[m]] = text.take (m + 1) := by
      rw [List.take_succ, List.getElem?_eq_getElem hmlt]
      simp
    have IH := findCutAux_reaches text i hcut hpos hmin k (m + 1) (by omega)
    rw [hdropm]
    simp only [findCutAux]
    by_cases hprim : primary_endings.contains (text[m]) = true
    · rw [if_pos hprim]
      by_cases hm0 : 0 < m
      · exfalso
        have hcm : cutAt text m = true := by
          unfold cutAt
          rw [List.getElem?_eq_getElem hmlt]
          dsimp only
          rw [hprim]
          simp
        rw [hmin m (by omega) hm0] at hcm
        exact absurd hcm (by simp)
      · rw [if_neg, hstep]
        · exact IH
        · rw [List.length_take]
          omega
    · rw [if_neg hprim]
      by_cases hnl : text[m] = '\n'
      · rw [if_pos hnl, if_neg, hstep]
        · exact IH
        · intro hcond
          rcases Bool.and_eq_true_iff.mp hcond with ⟨hnotany, hlen0⟩
          have hm0 : 0 < m := by
            have := of_decide_eq_true hlen0
            rw [List.length_take] at this
            omega
          have hnp : noPrimaryBefore text m = true := by
            apply noPrimaryBefore_of_any_eq_false
            cases hany : (text.take m).any (fun x => primary_endings.contains x)
            · rfl
            · rw [hany] at hnotany
              exact absurd hnotany (by simp)
          have hcm : cutAt text m = true := by
            unfold cutAt
            rw [List.getElem?_eq_getElem hmlt]
            dsimp only
            rw [hnl, hnp, show primary_endings.contains '\n' = false from by decide]
            simp
          rw [hmin m (by omega) hm0] at hcm
          exact absurd hcm (by simp)
      · rw [if_neg hnl, hstep]
        exact IH

end Dify

namespace ChatHistory

theorem safeChar_false_of_control (c : Char) (h : isControlChar c = true) :
    safeChar c = false := by
  have hns : ¬ safeChar c = true := by
    intro hs
    simp only [safeChar, Bool.or_eq_true, Bool.and_eq_true, decide_eq_true_eq] at hs
    simp only [isControlChar, Bool.or_eq_true, Bool.and_eq_true, decide_eq_true_eq,
      beq_iff_eq] at h
    omega
  cases hb : safeChar c
  · rfl
  · exact absurd hb hns

theorem is_safe_filename_false_of_mem_control (fn : List Char) (c : Char)
    (hc : c ∈ fn) (hctl : isControlChar c = true) :
    is_safe_filename fn = false := by
  unfold is_safe_filename
  split
  · rfl
  · cases hall : fn.all safeChar
    · rfl
    · have := List.all_eq_true.mp hall c hc
      rw [safeChar_false_of_control c hctl] at this
      exact absurd this (by simp)

theorem sanitize_rejects_control (component : List Char) (c : Char)
    (hc : c ∈ basename (Dify.pyStrip component))
    (hctl : isControlChar c = true) :
    sanitize_path_component component = none := by
  unfold sanitize_path_component
  dsimp only
  rw [is_safe_filename_false_of_mem_control _ c hc hctl]
  simp

end ChatHistory

namespace Dify

theorem forcePlain_ne_nil (x : List Char) : forcePlain x ≠ [] := by
  unfold forcePlain
  split
  · rename_i hlast
    intro hnil
    subst hnil
    simp at hlast
  · simp

theorem sntFallback_unit_ne_nil (text u r : List Char) (htext : text ≠ [])
    (h : sntFallback text = some (u, r)) : u ≠ [] := by
  unfold sntFallback at h
  split at h
  · rename_i j hj
    split at h
    · simp only [Option.some.injEq, Prod.mk.injEq] at h
      obtain ⟨rfl, rfl⟩ := h
      simp [List.take_eq_nil_iff, htext]
    · exact absurd h (by simp)
  · exact absurd h (by simp)

theorem split_normal_text_unit_ne_nil (text u r : List Char) (htext : text ≠ [])
    (h : split_normal_text text = some (u, r)) : u ≠ [] := by
  unfold split_normal_text at h
  split at h
  · rename_i n hn
    simp only [Option.some.injEq, Prod.mk.injEq] at h
    obtain ⟨rfl, rfl⟩ := h
    have hpos := findCutAux_pos text [] n hn
    simp [List.take_eq_nil_iff, htext]
    omega
  · split at h
    · split at h
      · split at h
        · simp only [Option.some.injEq, Prod.mk.injEq] at h
          obtain ⟨rfl, rfl⟩ := h
          simp [List.take_eq_nil_iff, htext]
        · exact sntFallback_unit_ne_nil text u r htext h
      · exact sntFallback_unit_ne_nil text u r htext h
    · exact absurd h (by simp)

theorem codeBranch_unit_ne_nil (text u r : List Char) (htext : text ≠ [])
    (h : codeBranch text 0 = some (u, r)) : u ≠ [] := by
  unfold codeBranch at h
  split at h
  · exact absurd h (by simp)
  · split at h
    · exact absurd h (by simp)
    · split at h
      · simp only [Option.some.injEq, Prod.mk.injEq] at h
        obtain ⟨rfl, rfl⟩ := h
        simp
      · simp only [Option.some.injEq, Prod.mk.injEq] at h
        obtain ⟨rfl, rfl⟩ := h
        simp [List.take_eq_nil_iff, htext]

theorem tableBranch_unit_ne_nil (text u r : List Char) (hh : text.head? = some '|')
    (h : tableBranch text 0 = some (u, r)) : u ≠ [] := by
  rw [tableBranch_head_pipe text hh] at h
  simp only [Option.some.injEq, Prod.mk.injEq] at h
  obtain ⟨rfl, rfl⟩ := h
  cases text with
  | nil => simp at hh
  | cons c t =>
    simp only [List.head?_cons, Option.some.injEq] at hh
    subst hh
    rcases splitOnChar_cons_head '\n' '|' t (by decide) with ⟨h0, t0, hsp⟩
    rw [hsp, List.takeWhile_cons, if_pos (pipeLine_of_head _ (by simp))]
    exact intercalateChar_ne_nil '\n' _ _ (by simp)

end Dify

/-! ## The claims -/

/-- Claim C1, amended: for every fragmentation of the answer into deltas,
the concatenation of all units emitted by the engine (final flush
included) equals the full answer text up to newline characters: no
non-newline character is lost or reordered.  (As stated the claim fails:
the newline separating an emitted table from the following material is
deleted, see the counterexample.) -/
theorem claim_C1_amended (deltas : List (List Char)) :
    (Dify.processDeltas deltas).flatten.filter (fun c => c != '\n') =
      deltas.flatten.filter (fun c => c != '\n') := by
  rw [Dify.processDeltas_flatten]
  simpa using Dify.feedDeltas_filter deltas []

/-- Claim C1, counterexample: the single batch delta `"|a\nb。"` emits
`"|a"` and (at flush) `"b。"`; the newline between them is gone, so the
output has strictly fewer newline characters than the answer text — a
character was lost, not merely newlines inserted. -/
theorem claim_C1_counterexample :
    Dify.processDeltas [("|a\nb。").data] = [("|a").data, ("b。").data] ∧
    (Dify.processDeltas [("|a\nb。").data]).flatten.count '\n' <
      (("|a\nb。").data).count '\n' := by
  decide

/-- Claim C2, amended: for every buffer whose first character is a pipe,
the engine emits the leading run of pipe-lines as one unit and keeps the
rest buffered — also when no non-pipe line follows yet (then the whole
buffer is emitted with an empty remainder; the original claim said nothing
is emitted in that case). -/
theorem claim_C2_amended (text : List Char) (h : text.head? = some '|') :
    Dify.split_complete_sentences text =
      some (Dify.intercalateChar '\n'
              ((Dify.splitOnChar '\n' text).takeWhile Dify.pipeLine),
            Dify.intercalateChar '\n'
              ((Dify.splitOnChar '\n' text).dropWhile Dify.pipeLine)) :=
  (Dify.scs_eq_tableBranch text h).trans (Dify.tableBranch_head_pipe text h)

/-- Claim C2, witness: the claim's own example with the trailing non-pipe
line: the three pipe-lines are one unit and `"Done"` stays buffered. -/
theorem claim_C2_witness :
    Dify.split_complete_sentences (("|a|b|\n|-|-|\n|1|2|\nDone").data) =
      some ((("|a|b|\n|-|-|\n|1|2|").data), (("Done").data)) :=
  (claim_C2_amended (("|a|b|\n|-|-|\n|1|2|\nDone").data) (by decide)).trans
    (by decide)

/-- Claim C2, counterexample: without `"Done"` the claim says nothing is
emitted, but the code emits the still-growing table at once with an empty
remainder. -/
theorem claim_C2_counterexample :
    Dify.split_complete_sentences (("|a|b|\n|-|-|\n|1|2|").data) =
      some ((("|a|b|\n|-|-|\n|1|2|").data), ([] : List Char)) := by
  decide

/-- Claim C3, amended: for a buffer starting with a fence, fewer than two
fence markers emit nothing; with a second marker at offset `k` of the rest,
one unit spans both markers inclusive, and a trailing newline is appended
exactly when the remainder is non-empty and does not already start with
one (the original claim also demanded the newline for an empty
remainder). -/
theorem claim_C3_amended (text : List Char)
    (hpre : Dify.fence.isPrefixOf text = true) :
    (Dify.countFence text < 2 → Dify.split_complete_sentences text = none) ∧
    (∀ k, Dify.findSubIdx Dify.fence (text.drop 3) = some k →
      Dify.split_complete_sentences text =
        if text.drop (k + 6) ≠ [] ∧ (text.drop (k + 6)).head? ≠ some '\n' then
          some (text.take (k + 6) ++ ['\n'], text.drop (k + 6))
        else some (text.take (k + 6), text.drop (k + 6))) := by
  constructor
  · intro hcount
    rw [Dify.scs_eq_codeBranch text hpre]
    unfold Dify.codeBranch
    rw [List.drop_zero, if_pos hcount]
  · intro k hk
    rw [Dify.scs_eq_codeBranch text hpre]
    unfold Dify.codeBranch
    have hge : ¬ Dify.countFence (text.drop 0) < 2 := by
      rw [List.drop_zero]
      rcases (Dify.fence_isPrefixOf_iff text).mp hpre with ⟨t, rfl⟩
      have ht3 : (('\x60' :: '\x60' :: '\x60' :: t).drop 3) = t := rfl
      rw [ht3] at hk
      have hcp := Dify.countFence_pos t k hk
      have hcf : Dify.countFence ('\x60' :: '\x60' :: '\x60' :: t) =
          1 + Dify.countFence t := rfl
      omega
    rw [if_neg hge]
    have hk' : Dify.findSubIdx Dify.fence (text.drop (0 + 3)) = some k := hk
    rw [hk']
    show (if text.drop (0 + 3 + k + 3) ≠ [] ∧
          (text.drop (0 + 3 + k + 3)).head? ≠ some '\n'
        then some (List.take (0 + 3 + k + 3 - 0) (text.drop 0) ++ ['\n'],
          text.drop (0 + 3 + k + 3))
        else some (List.take (0 + 3 + k + 3 - 0) (text.drop 0),
          text.drop (0 + 3 + k + 3))) = _
    have e1 : (0 : Nat) + 3 + k + 3 = k + 6 := by omega
    rw [e1, Nat.sub_zero, List.drop_zero]

/-- Claim C3, witness: a single open fence yields nothing; a closed fence
with following material yields the fence-to-fence unit, here with no
appended newline because the remainder starts with one. -/
theorem claim_C3_witness :
    Dify.split_complete_sentences (("```abc").data) = none ∧
    Dify.split_complete_sentences (("```a```\nX").data) =
      some ((("```a```").data), (("\nX").data)) := by
  constructor
  · exact (claim_C3_amended (("```abc").data) (by decide)).1 (by decide)
  · exact ((claim_C3_amended (("```a```\nX").data) (by decide)).2 1
      (by decide)).trans (by decide)

/-- Claim C3, counterexample: for the buffer `"```a```"` the remainder is
empty — it does not start with a newline, yet no trailing newline is
appended to the emitted unit, contradicting the claim as stated. -/
theorem claim_C3_counterexample :
    Dify.split_complete_sentences (("```a```").data) =
      some ((("```a```").data), ([] : List Char)) ∧
    (("```a```").data).getLast? ≠ some '\n' ∧
    ¬ (([] : List Char).head? = some '\n') := by
  decide

/-- Claim C4, confirmed: ordinary text before the first special marker
(fence or pipe, position `k > 0`) is force-emitted at once as its own
unit, with a trailing newline appended when it lacks one, and the material
from the marker on stays buffered. -/
theorem claim_C4 (text : List Char) (k : Nat)
    (h : Dify.firstSpecialPos text = some k) (hk : 0 < k) :
    Dify.split_complete_sentences text =
      some ((if (text.take k).getLast? = some '\n' then text.take k
             else text.take k ++ ['\n']), text.drop k) :=
  Dify.scs_plain text k h hk

/-- Claim C4, witness: the claim's example — `"Hello\n"` first, then the
full fenced block on the next extraction. -/
theorem claim_C4_witness :
    Dify.split_complete_sentences (("Hello```python\ncode\n```\n").data) =
      some ((("Hello\n").data), (("```python\ncode\n```\n").data)) ∧
    Dify.split_complete_sentences (("```python\ncode\n```\n").data) =
      some ((("```python\ncode\n```").data), (("\n").data)) :=
  ⟨(claim_C4 (("Hello```python\ncode\n```\n").data) 5 (by decide)
      (by decide)).trans (by decide),
   by decide⟩

/-- Claim C5, amended: for a buffer with no pipe and no fence that is not
whitespace-only, the unit ends right after the first boundary position
`i > 0` (a primary full-width terminator, or a newline with no primary
terminator anywhere before it) — a terminator or newline at position 0
does not cut (the original claim admitted position 0, see the
counterexample). -/
theorem claim_C5_amended (text : List Char) (i : Nat)
    (hf : Dify.findSubIdx Dify.fence text = none)
    (hp : Dify.findCharIdx (fun c => c == '|') text = none)
    (hw : Dify.wsOnly text = false)
    (hi : 0 < i)
    (hcut : Dify.cutAt text i = true)
    (hmin : ∀ j, j < i → 0 < j → Dify.cutAt text j = false) :
    Dify.split_complete_sentences text =
      some (text.take (i + 1), text.drop (i + 1)) := by
  rw [Dify.scs_eq_normal text hf hp hw]
  have h := Dify.findCutAux_reaches text i hcut hi hmin i 0 (by omega)
  simp only [List.take_zero, List.drop_zero] at h
  unfold Dify.split_normal_text
  rw [h]

/-- Claim C5, witness: the claim's example splits into exactly the two
units `"今天天气很好。"` and `"明天呢？"`. -/
theorem claim_C5_witness :
    Dify.split_complete_sentences (("今天天气很好。明天呢？").data) =
      some ((("今天天气很好。").data), (("明天呢？").data)) ∧
    Dify.split_complete_sentences (("明天呢？").data) =
      some ((("明天呢？").data), ([] : List Char)) := by
  constructor
  · exact (claim_C5_amended (("今天天气很好。明天呢？").data) 6 (by decide)
      (by decide) (by decide) (by decide) (by decide) (by decide)).trans
      (by decide)
  · exact (claim_C5_amended (("明天呢？").data) 3 (by decide) (by decide)
      (by decide) (by decide) (by decide) (by decide)).trans (by decide)

/-- Claim C5, counterexample: `"。a"` has its first primary terminator at
position 0, yet the engine emits nothing — the claim as stated demands a
unit ending at position 1. -/
theorem claim_C5_counterexample :
    Dify.split_complete_sentences (("。a").data) = none ∧
    (("。a").data)[0]? = some '。' ∧
    Dify.primary_endings.contains '。' = true := by
  decide

/-- Claim C6, evaluation at the failing input: the caller supplied no
conversation id and two events carry one — the conversation-id control
marker is yielded twice in the same stream.  The guard tests the
`conversation_id` parameter, which is never updated after the first
assignment, so the marker repeats on every event carrying the id. -/
theorem claim_C6_eval :
    Dify.chat_completion_run []
      [{ event := ("message").data, conversation_id := ("c1").data },
       { event := ("message").data, conversation_id := ("c1").data }] none =
      ([Dify.convMarker (("c1").data), Dify.convMarker (("c1").data)], []) := by
  decide

/-- Claim C7, amended: at a `message_end` event the non-empty remainder of
the buffer is flushed as one final unit and the buffer is cleared; at an
`error` event the loop stops emitting only the error output — the buffer
is NOT flushed (the original claim said it is) — and the `finally` clause
clears the buffer on every exit path of `chat_completion`. -/
theorem claim_C7_amended :
    (∀ (cid : List Char) (e : Dify.SSEEvent) (rest : List Dify.SSEEvent)
        (buf : List Char),
      e.event = ("message_end").data → buf ≠ [] →
      Dify.difyLoop cid (e :: rest) buf =
        ((if cid = [] ∧ e.conversation_id ≠ [] then
            [Dify.convMarker e.conversation_id] else []) ++ [buf], [])) ∧
    (∀ (cid : List Char) (e : Dify.SSEEvent) (rest : List Dify.SSEEvent)
        (buf : List Char),
      e.event = ("error").data →
      Dify.difyLoop cid (e :: rest) buf =
        ((if cid = [] ∧ e.conversation_id ≠ [] then
            [Dify.convMarker e.conversation_id] else []) ++
          [Dify.errHead ++ e.message.getD (("未知错误").data)], buf)) ∧
    (∀ (cid : List Char) (events : List Dify.SSEEvent)
        (te : Option (List Char)),
      (Dify.chat_completion_run cid events te).2 = []) := by
  refine ⟨?_, ?_, ?_⟩
  · intro cid e rest buf he hb
    simp only [Dify.difyLoop, he]
    simp [hb]
  · intro cid e rest buf he
    simp only [Dify.difyLoop, he]
    simp
  · intro cid events te
    unfold Dify.chat_completion_run
    cases te <;> rfl

/-- Claim C7, witness: concrete flush at `message_end` with `"abc"`
buffered, concrete non-flush at an `error` event, and the cleared buffer
of a whole run. -/
theorem claim_C7_witness :
    Dify.difyLoop [] [{ event := ("message_end").data }] (("abc").data) =
      ([("abc").data], []) ∧
    Dify.difyLoop [] [{ event := ("error").data }] (("abc").data) =
      ([Dify.errHead ++ ("未知错误").data], ("abc").data) ∧
    (Dify.chat_completion_run [] [] none).2 = [] := by
  refine ⟨?_, ?_, claim_C7_amended.2.2 [] [] none⟩
  · exact (claim_C7_amended.1 [] { event := ("message_end").data } []
      (("abc").data) rfl (by decide)).trans (by decide)
  · exact (claim_C7_amended.2.1 [] { event := ("error").data } []
      (("abc").data) rfl).trans (by decide)

/-- Claim C7, counterexample: `"abc"` is buffered when the error event
arrives; the claim says it is flushed to the consumer, but the only
output is the error string and `"abc"` is nowhere in the output. -/
theorem claim_C7_counterexample :
    Dify.chat_completion_run []
      [{ event := ("message").data, answer := ("abc").data },
       { event := ("error").data }] none =
      ([Dify.errHead ++ ("未知错误").data], []) ∧
    ¬ (("abc").data ∈ (Dify.chat_completion_run []
      [{ event := ("message").data, answer := ("abc").data },
       { event := ("error").data }] none).1) := by
  decide

/-- Claim C8, amended: an identifier whose stripped basename contains a
control character is rejected (the sanitizer raises), but identifiers
containing a path separator are not rejected — the part after the last
`/` is silently used — and `".."` is accepted verbatim (it only matters
for the user id, where the traversal guard of the path builder fires). -/
theorem claim_C8_amended :
    (∀ (component : List Char) (c : Char),
      c ∈ ChatHistory.basename (Dify.pyStrip component) →
      ChatHistory.isControlChar c = true →
      ChatHistory.sanitize_path_component component = none) ∧
    ChatHistory.sanitize_path_component (("a/b").data) = some (("b").data) ∧
    ChatHistory.sanitize_path_component (("..").data) = some (("..").data) ∧
    ChatHistory.get_safe_history_path (("alice").data) (("..").data) =
      some (("chat_history/users/alice/...json").data) :=
  ⟨ChatHistory.sanitize_rejects_control, by decide, by decide, by decide⟩

/-- Claim C8, witness: an identifier with an embedded control character
(U+0001) is rejected. -/
theorem claim_C8_witness :
    ChatHistory.sanitize_path_component (("a\x01b").data) = none :=
  claim_C8_amended.1 (("a\x01b").data) '\x01' (by decide) (by decide)

/-- Claim C8, counterexample: `"a/b"` contains a path separator and
`".."` is a traversal component; the claim says both are rejected, but
the sanitizer accepts both (taking the basename of the first). -/
theorem claim_C8_counterexample :
    ChatHistory.sanitize_path_component (("a/b").data) = some (("b").data) ∧
    ChatHistory.sanitize_path_component (("..").data) = some (("..").data) := by
  decide

/-- Claim C9, confirmed: on a freshly created history file, storing a
human message and then an ai message appends them after the metadata
record in insertion order, and `get_history` returns exactly the two
messages in that order with the metadata record excluded. -/
theorem claim_C9
    (user_id history_uid su t0 t1 t2 c1 c2 : List Char)
    (n1 a1 n2 a2 : Option (List Char))
    (hu : user_id ≠ []) (hh : history_uid ≠ [])
    (hsan : ChatHistory.sanitize_path_component user_id = some su)
    (hpath : ChatHistory.get_safe_history_path user_id history_uid =
      some ((("chat_history/users/").data ++ su ++ '/' :: history_uid ++
        (".json").data))) :
    ∃ fs1 fs2 fs3 : ChatHistory.FS,
      ChatHistory.create_new_history (fun _ => none) user_id history_uid t0 =
        some fs1 ∧
      ChatHistory.store_message fs1 user_id history_uid (("human").data) c1
        n1 a1 t1 = some fs2 ∧
      ChatHistory.store_message fs2 user_id history_uid (("ai").data) c2
        n2 a2 t2 = some fs3 ∧
      fs3 ((("chat_history/users/").data ++ su ++ '/' :: history_uid ++
          (".json").data)) =
        some [ChatHistory.metadataRecord t0 user_id,
          { role := ("human").data, timestamp := t1, content := c1,
            name := n1, avatar := a1 },
          { role := ("ai").data, timestamp := t2, content := c2,
            name := n2, avatar := a2 }] ∧
      ChatHistory.get_history fs3 user_id history_uid =
        some [{ role := ("human").data, timestamp := t1, content := c1,
                name := n1, avatar := a1 },
              { role := ("ai").data, timestamp := t2, content := c2,
                name := n2, avatar := a2 }] := by
  set path : List Char :=
    ("chat_history/users/").data ++ su ++ '/' :: history_uid ++ (".json").data
    with hpd
  have hguard : ¬ (user_id = [] ∨ history_uid = []) := not_or.mpr ⟨hu, hh⟩
  refine ⟨fun p => if p = path then
      some [ChatHistory.metadataRecord t0 user_id] else none,
    fun p => if p = path then
      some [ChatHistory.metadataRecord t0 user_id,
        { role := ("human").data, timestamp := t1, content := c1,
          name := n1, avatar := a1 }]
    else (fun p' => if p' = path then
      some [ChatHistory.metadataRecord t0 user_id] else none) p,
    fun p => if p = path then
      some [ChatHistory.metadataRecord t0 user_id,
        { role := ("human").data, timestamp := t1, content := c1,
          name := n1, avatar := a1 },
        { role := ("ai").data, timestamp := t2, content := c2,
          name := n2, avatar := a2 }]
    else (fun p' => if p' = path then
      some [ChatHistory.metadataRecord t0 user_id,
        { role := ("human").data, timestamp := t1, content := c1,
          name := n1, avatar := a1 }]
      else (fun p'' => if p'' = path then
        some [ChatHistory.metadataRecord t0 user_id] else none) p') p,
    ?_, ?_, ?_, ?_, ?_⟩
  · unfold ChatHistory.create_new_history
    rw [if_neg hu, hsan]
  · unfold ChatHistory.store_message
    rw [if_neg hguard, hpath]
    dsimp only
    congr 1
    funext p
    by_cases hp : p = path
    · subst hp
      simp
    · simp [hp]
  · unfold ChatHistory.store_message
    rw [if_neg hguard, hpath]
    dsimp only
    congr 1
    funext p
    by_cases hp : p = path
    · subst hp
      simp
    · simp [hp]
  · simp
  · unfold ChatHistory.get_history
    rw [if_neg hguard, hpath]
    have hne1 : ¬ (("human").data : List Char) = ("metadata").data := by decide
    have hne2 : ¬ (("ai").data : List Char) = ("metadata").data := by decide
    simp [ChatHistory.metadataRecord, List.filter, hne1, hne2]

/-- Claim C9, witness: the chain at concrete identifiers and contents. -/
theorem claim_C9_witness :
    ∃ fs1 fs2 fs3 : ChatHistory.FS,
      ChatHistory.create_new_history (fun _ => none) (("alice").data)
        (("h1").data) (("t0").data) = some fs1 ∧
      ChatHistory.store_message fs1 (("alice").data) (("h1").data)
        (("human").data) (("hi").data) none none (("t1").data) = some fs2 ∧
      ChatHistory.store_message fs2 (("alice").data) (("h1").data)
        (("ai").data) (("yo").data) none none (("t2").data) = some fs3 ∧
      fs3 ((("chat_history/users/").data ++ ("alice").data ++ '/' ::
          ("h1").data ++ (".json").data)) =
        some [ChatHistory.metadataRecord (("t0").data) (("alice").data),
          { role := ("human").data, timestamp := ("t1").data,
            content := ("hi").data, name := none, avatar := none },
          { role := ("ai").data, timestamp := ("t2").data,
            content := ("yo").data, name := none, avatar := none }] ∧
      ChatHistory.get_history fs3 (("alice").data) (("h1").data) =
        some [{ role := ("human").data, timestamp := ("t1").data,
                content := ("hi").data, name := none, avatar := none },
              { role := ("ai").data, timestamp := ("t2").data,
                content := ("yo").data, name := none, avatar := none }] :=
  claim_C9 (("alice").data) (("h1").data) (("alice").data) (("t0").data)
    (("t1").data) (("t2").data) (("hi").data) (("yo").data) none none none none
    (by decide) (by decide) (by decide) (by decide)

/-- Claim C10, confirmed: every successful extraction returns a pair of a
non-empty unit and a remainder, and an empty or whitespace-only buffer
never yields a unit. -/
theorem claim_C10 :
    (∀ text u r, Dify.split_complete_sentences text = some (u, r) → u ≠ []) ∧
    (∀ text, Dify.wsOnly text = true →
      Dify.split_complete_sentences text = none) := by
  constructor
  · intro text u r h
    unfold Dify.split_complete_sentences at h
    split at h
    · exact absurd h (by simp)
    · rename_i hws
      have htext : text ≠ [] := by
        intro heq
        subst heq
        exact hws rfl
      split at h
      · exact Dify.split_normal_text_unit_ne_nil text u r htext h
      · split at h
        · simp only [Option.some.injEq, Prod.mk.injEq] at h
          obtain ⟨rfl, rfl⟩ := h
          exact Dify.forcePlain_ne_nil _
        · split at h
          · rename_i fs hfsp hnlt hfence
            have hfs0 : fs = 0 := by omega
            subst hfs0
            exact Dify.codeBranch_unit_ne_nil text u r htext h
          · split at h
            · rename_i fs hfsp hnlt hfence hpipe
              have hfs0 : fs = 0 := by omega
              subst hfs0
              have hh : text.head? = some '|' := by
                cases text with
                | nil => simp [Dify.findCharIdx] at hpipe
                | cons c t =>
                  by_cases hc : (c == '|') = true
                  · simp only [List.head?_cons]
                    have : c = '|' := by simpa using hc
                    rw [this]
                  · exact absurd hpipe
                      (Dify.findCharIdx_ne_some_zero _ c t (by simpa using hc))
              exact Dify.tableBranch_unit_ne_nil text u r hh h
            · exact absurd h (by simp)
  · intro text hws
    unfold Dify.split_complete_sentences
    rw [if_pos hws]

/-- Claim C10, witness: the unit extracted from `"a。"` is non-empty, and
the whitespace-only buffer `" "` yields nothing. -/
theorem claim_C10_witness :
    ((("a。").data : List Char) ≠ []) ∧
    Dify.split_complete_sentences ((" ").data) = none :=
  ⟨claim_C10.1 (("a。").data) (("a。").data) [] (by decide),
   claim_C10.2 ((" ").data) (by decide)⟩
